import Mathlib

/-!
# primes-cpp: `add`, `is_prime`, `primes_up_to`

A shallow embedding of `src/calc.cpp` and a verification of its contract.

Modelling conventions.

* A C++ `int` is a 32-bit two's-complement integer; it is embedded as a Lean `Int`
  lying in `[INT_MIN, INT_MAX]`.
* Signed overflow and division by zero are undefined behaviour in C++.  Every
  `int` operation of the source that can trigger one of them is embedded with an
  explicit check and yields the outcome `Res.overflow` / `Res.div_by_zero`; a
  computation that completes with a value yields `Res.ok`.
* `std::sqrt` on an `int` argument converts the argument to `double` (exactly, a
  binary64 significand has 53 bits) and returns the correctly rounded binary64
  square root (IEEE 754).  This is embedded by `sqrt_double`; the conversion back
  to `int` truncates toward zero and is embedded by `double_to_int`.
* The two `for` loops are embedded as recursive functions whose termination is
  checked by Lean.
-/

namespace PrimesCpp

/-! ## Machine integers and outcomes -/

/-- Largest value of a 32-bit `int`. -/
def INT_MAX : Int := 2147483647

/-- Smallest value of a 32-bit `int`. -/
def INT_MIN : Int := -2147483648

/-- Outcome of running a piece of the program: a value, or one of the two kinds of
undefined behaviour the source can reach. -/
inductive Res (α : Type) where
  | ok (v : α)
  | overflow
  | div_by_zero
  deriving DecidableEq, Repr

/-! ## `add` -/

/-- Source: `int add(int a, int b) { return a + b; }`.  The sum of two `int`s is
computed in `int`; a sum outside the `int` range is a signed overflow. -/
def add (a b : Int) : Res Int :=
  if a + b < INT_MIN ∨ INT_MAX < a + b then Res.overflow else Res.ok (a + b)

/-! ## Binary64 square root -/

/-- Floor of the square root, computed two bits of the argument at a time;
`fuel` bounds the number of base-4 digits of `n`. -/
def isqrt_aux : Nat → Nat → Nat
  | 0, _ => 0
  | fuel + 1, n =>
    if n = 0 then 0
    else
      let r := 2 * isqrt_aux fuel (n / 4)
      if (r + 1) * (r + 1) ≤ n then r + 1 else r

/-- Floor of the square root of a natural number. -/
def isqrt (n : Nat) : Nat := isqrt_aux n n

/-- Floor of the base-2 logarithm, by repeated halving; `fuel` bounds the number of
binary digits of `k`. -/
def ilog2_aux : Nat → Nat → Nat
  | 0, _ => 0
  | fuel + 1, k => if k < 2 then 0 else ilog2_aux fuel (k / 2) + 1

/-- Floor of the base-2 logarithm of a natural number (`0` for `k = 0`). -/
def ilog2 (k : Nat) : Nat := ilog2_aux k k

/-- A non-negative binary64 value, written `mant / 2 ^ scale`. -/
structure Dyadic where
  mant : Nat
  scale : Nat
  deriving DecidableEq, Repr

/-- The call `std::sqrt(n)` for an `int` argument `n ≥ 0`: the binary64 number nearest
to `√n`.

With `2 ^ e ≤ √n < 2 ^ (e + 1)` the result is `m / 2 ^ (52 - e)` where the 53-bit
significand `m` is `√n * 2 ^ (52 - e)` rounded to the nearest integer.  Writing
`N = n * 4 ^ (52 - e)` and `r = ⌊√N⌋`, the value `√N` lies below `r + 1/2` exactly
when `N ≤ r * r + r`; a tie cannot occur because `(r + 1/2)²` is not an integer. -/
def sqrt_double (n : Nat) : Dyadic :=
  let e := ilog2 (isqrt n)
  let s := 52 - e
  let N := n * 4 ^ s
  let r := isqrt N
  if N - r * r ≤ r then ⟨r, s⟩ else ⟨r + 1, s⟩

/-- The conversion `static_cast<int>(x)` of a non-negative `double`: truncation
toward zero. -/
def double_to_int (x : Dyadic) : Int := Int.ofNat (x.mant / 2 ^ x.scale)

/-! ## `is_prime` -/

/-- Source: the loop `for (int i = 3; i <= limit; i += 2) if (n % i == 0) return false;`
followed by `return true;`, entered with the current value of `i`.

`n % i` is the truncating remainder of C++; it is undefined for `i = 0` and for
`INT_MIN % -1` (whose quotient overflows).  The update `i += 2` is undefined when
`i + 2` exceeds `INT_MAX`. -/
def is_prime_loop (n limit i : Int) : Res Bool :=
  if i ≤ limit then
    if i = 0 then Res.div_by_zero
    else if n = INT_MIN ∧ i = -1 then Res.overflow
    else if Int.tmod n i = 0 then Res.ok false
    else if INT_MAX < i + 2 then Res.overflow
    else is_prime_loop n limit (i + 2)
  else Res.ok true
termination_by (limit + 1 - i).toNat
decreasing_by omega

/-- Source: `bool is_prime(int n)`. -/
def is_prime (n : Int) : Res Bool :=
  if n < 2 then Res.ok false
  else if Int.tmod n 2 = 0 then Res.ok (decide (n = 2))
  else
    let limit : Int := double_to_int (sqrt_double n.toNat)
    is_prime_loop n limit 3

/-! ## `primes_up_to` -/

/-- Source: the loop `for (int i = 2; i <= n; ++i) if (is_prime(i)) out.push_back(i);`
followed by `return out;`, entered with the current values of `i` and `out`.

The update `++i` is undefined when `i + 1` exceeds `INT_MAX`. -/
def primes_up_to_loop (n i : Int) (out : List Int) : Res (List Int) :=
  if i ≤ n then
    match is_prime i with
    | Res.ok b =>
      if INT_MAX < i + 1 then Res.overflow
      else primes_up_to_loop n (i + 1) (if b then out ++ [i] else out)
    | Res.overflow => Res.overflow
    | Res.div_by_zero => Res.div_by_zero
  else Res.ok out
termination_by (n + 1 - i).toNat
decreasing_by omega

/-- Source: `std::vector<int> primes_up_to(int n)`. -/
def primes_up_to (n : Int) : Res (List Int) :=
  primes_up_to_loop n 2 []

/-- The successive values of the counter `i` at the loop test of `is_prime_loop`
(the loop of `is_prime`), the first one being the value the loop is entered with.
The body runs for the values with `i ≤ limit`; the recursion is that of
`is_prime_loop`. -/
def is_prime_loop_trace (n limit i : Int) : List Int :=
  i :: (if i ≤ limit then
    if i = 0 then []
    else if n = INT_MIN ∧ i = -1 then []
    else if Int.tmod n i = 0 then []
    else if INT_MAX < i + 2 then []
    else is_prime_loop_trace n limit (i + 2)
  else [])
termination_by (limit + 1 - i).toNat
decreasing_by omega

/-! ## The demonstration program -/

/-- Source: `int main()` of `app/main.cpp`.  The value is the text written to
standard output together with the exit code; `<<` applied to an `int` writes its
decimal representation. -/
def main : Res (String × Int) :=
  match add 2 3 with
  | Res.ok s =>
    match is_prime 17 with
    | Res.ok b =>
      Res.ok ("2 + 3 = " ++ toString s ++ "\n"
        ++ "Is 17 prime? " ++ (if b then "yes" else "no") ++ "\n", 0)
    | Res.overflow => Res.overflow
    | Res.div_by_zero => Res.div_by_zero
  | Res.overflow => Res.overflow
  | Res.div_by_zero => Res.div_by_zero

/-! ## Specification vocabulary -/

/-- A prime number in the mathematical sense: an integer `n ≥ 2` whose only positive
divisors are `1` and `n`. -/
def MathPrime (n : Int) : Prop :=
  2 ≤ n ∧ ∀ d : Int, 0 < d → d ∣ n → d = 1 ∨ d = n

/-- The consecutive integers `i, i + 1, …` (`k` of them). -/
def int_range (i : Int) : Nat → List Int
  | 0 => []
  | k + 1 => i :: int_range (i + 1) k

/-! ## The incremented-bound formulation of the spec -/

/-- The formulation the spec's design notes propose in place of the square-root
bound: the loop `for (d = 3; d*d <= n; d += 2) if (n % d == 0) return false;`
followed by `return true;`, entered with the current value of `d`.

The spec leaves open the integer type in which the product `d*d` is computed
("signed, at least 32-bit range"); `prod_max` is the largest value of that type,
`INT_MAX` when the product is an `int` like `d` and `n`.  A product above `prod_max`
is a signed overflow. -/
def is_prime_sq_loop (prod_max n d : Int) : Res Bool :=
  if prod_max < d * d then Res.overflow
  else if d * d ≤ n then
    if d = 0 then Res.div_by_zero
    else if n = INT_MIN ∧ d = -1 then Res.overflow
    else if Int.tmod n d = 0 then Res.ok false
    else if INT_MAX < d + 2 then Res.overflow
    else is_prime_sq_loop prod_max n (d + 2)
  else Res.ok true
termination_by (n + 1 - d).toNat
decreasing_by
  have : d ≤ d * d := by nlinarith
  omega

/-- The incremented-bound variant of `is_prime`: the same two guards, then the loop
on `d*d <= n`. -/
def is_prime_sq (prod_max n : Int) : Res Bool :=
  if n < 2 then Res.ok false
  else if Int.tmod n 2 = 0 then Res.ok (decide (n = 2))
  else is_prime_sq_loop prod_max n 3

/-! ## The square root bound is exact -/

theorem isqrt_aux_eq (fuel : Nat) : ∀ n : Nat, n ≤ fuel → isqrt_aux fuel n = Nat.sqrt n := by
  induction fuel with
  | zero =>
    intro n hn
    have h0 : n = 0 := by omega
    subst h0
    simp [isqrt_aux]
  | succ f ih =>
    intro n hn
    unfold isqrt_aux
    by_cases h0 : n = 0
    · subst h0; simp
    · have hq : isqrt_aux f (n / 4) = Nat.sqrt (n / 4) := ih (n / 4) (by omega)
      simp only [h0, if_false, hq]
      have h1 : Nat.sqrt (n / 4) * Nat.sqrt (n / 4) ≤ n / 4 := Nat.sqrt_le _
      have h2 : n / 4 < (Nat.sqrt (n / 4) + 1) * (Nat.sqrt (n / 4) + 1) := Nat.lt_succ_sqrt _
      generalize Nat.sqrt (n / 4) = q at h1 h2
      have e1 : (2 * q + 1) * (2 * q + 1) = 4 * (q * q) + 4 * q + 1 := by ring
      have e2 : (2 * q + 1 + 1) * (2 * q + 1 + 1) = 4 * (q * q) + 8 * q + 4 := by ring
      have e3 : (q + 1) * (q + 1) = q * q + 2 * q + 1 := by ring
      have e4 : (2 * q) * (2 * q) = 4 * (q * q) := by ring
      split
      · rename_i hle
        apply Nat.eq_sqrt.2
        constructor
        · exact hle
        · rw [e2]; omega
      · rename_i hle
        apply Nat.eq_sqrt.2
        constructor
        · rw [e4]; omega
        · omega

theorem isqrt_eq (n : Nat) : isqrt n = Nat.sqrt n :=
  isqrt_aux_eq n n (Nat.le_refl n)

theorem ilog2_aux_le (fuel : Nat) : ∀ k j : Nat, k < 2 ^ (j + 1) → ilog2_aux fuel k ≤ j := by
  induction fuel with
  | zero => intro k j _; simp [ilog2_aux]
  | succ f ih =>
    intro k j hk
    unfold ilog2_aux
    split
    · omega
    · rename_i h2
      cases j with
      | zero => simp at hk; omega
      | succ j =>
        have : k / 2 < 2 ^ (j + 1) := by
          rw [pow_succ] at hk
          omega
        have := ih (k / 2) j this
        omega

theorem ilog2_le (k j : Nat) (hk : k < 2 ^ (j + 1)) : ilog2 k ≤ j :=
  ilog2_aux_le k k j hk

/-- Rounding the scaled root to the nearest integer and truncating the quotient gives
the floor of the square root, as soon as the scaling factor exceeds the root. -/
theorem round_div_eq_sqrt (n S : Nat) (hS : Nat.sqrt n < S) :
    (if n * (S * S) - Nat.sqrt (n * (S * S)) * Nat.sqrt (n * (S * S)) ≤ Nat.sqrt (n * (S * S))
      then Nat.sqrt (n * (S * S)) else Nat.sqrt (n * (S * S)) + 1) / S = Nat.sqrt n := by
  have hk1 : Nat.sqrt n * Nat.sqrt n ≤ n := Nat.sqrt_le n
  have hk2 : n < (Nat.sqrt n + 1) * (Nat.sqrt n + 1) := Nat.lt_succ_sqrt n
  have hr1 : Nat.sqrt (n * (S * S)) * Nat.sqrt (n * (S * S)) ≤ n * (S * S) := Nat.sqrt_le _
  generalize Nat.sqrt n = k at hS hk1 hk2
  have hlo : k * S ≤ Nat.sqrt (n * (S * S)) := by
    apply Nat.le_sqrt.2
    calc k * S * (k * S) = (k * k) * (S * S) := by ring
      _ ≤ n * (S * S) := Nat.mul_le_mul_right _ hk1
  have hSpos : 0 < S := by omega
  have hbig : n * (S * S) + S * S ≤ (k + 1) * S * ((k + 1) * S) := by
    calc n * (S * S) + S * S = (n + 1) * (S * S) := by ring
      _ ≤ ((k + 1) * (k + 1)) * (S * S) := Nat.mul_le_mul_right _ hk2
      _ = (k + 1) * S * ((k + 1) * S) := by ring
  have hhi : Nat.sqrt (n * (S * S)) < (k + 1) * S := by
    apply Nat.sqrt_lt.2
    have : 0 < S * S := Nat.mul_pos hSpos hSpos
    omega
  generalize Nat.sqrt (n * (S * S)) = r at hr1 hlo hhi
  apply Nat.div_eq_of_lt_le
  · split <;> omega
  · split
    · exact hhi
    · rename_i hgt
      by_contra hcon
      have hT : r + 1 = (k + 1) * S := by
        have : Nat.succ k * S = (k + 1) * S := rfl
        omega
      have e1 : (r + 1) * (r + 1) = r * r + r + (r + 1) := by ring
      rw [← hT, e1] at hbig
      have h3 : S * S < (k + 1) * S := by omega
      have h4 : (k + 1) * S ≤ S * S := Nat.mul_le_mul_right S hS
      omega

theorem double_to_int_sqrt_double (n : Nat) (hn : n < 2 ^ 31) :
    double_to_int (sqrt_double n) = Int.ofNat (Nat.sqrt n) := by
  have hk : Nat.sqrt n < 2 ^ 16 := by
    apply Nat.sqrt_lt.2
    calc n < 2 ^ 31 := hn
      _ ≤ 2 ^ 16 * 2 ^ 16 := by norm_num
  have he : ilog2 (Nat.sqrt n) ≤ 15 := ilog2_le _ 15 hk
  have hS : Nat.sqrt n < 2 ^ (52 - ilog2 (Nat.sqrt n)) := by
    calc Nat.sqrt n < 2 ^ 16 := hk
      _ ≤ 2 ^ (52 - ilog2 (Nat.sqrt n)) := Nat.pow_le_pow_right (by norm_num) (by omega)
  have h4 : ∀ s : Nat, 4 ^ s = 2 ^ s * 2 ^ s := by
    intro s
    rw [← Nat.mul_pow]
  have key := round_div_eq_sqrt n (2 ^ (52 - ilog2 (Nat.sqrt n))) hS
  have hsel : ∀ (c : Prop) [Decidable c] (a b s : Nat),
      (if c then (⟨a, s⟩ : Dyadic) else ⟨b, s⟩).mant
        / 2 ^ (if c then (⟨a, s⟩ : Dyadic) else ⟨b, s⟩).scale = (if c then a else b) / 2 ^ s := by
    intro c _ a b s
    split <;> rfl
  unfold double_to_int sqrt_double
  simp only [isqrt_eq, h4, hsel]
  exact congrArg Int.ofNat key

/-! ## The trial-division loop -/

theorem is_prime_loop_true (n limit : Int) (hlim : limit ≤ 46340) :
    ∀ k : Nat, ∀ i : Int, 3 ≤ i → (limit + 1 - i).toNat ≤ k →
      (∀ j : Nat, i + 2 * (j : Int) ≤ limit → ¬ (i + 2 * (j : Int)) ∣ n) →
      is_prime_loop n limit i = Res.ok true := by
  intro k
  induction k with
  | zero =>
    intro i _ hk _
    rw [is_prime_loop]
    have : ¬ i ≤ limit := by omega
    simp [this]
  | succ k ih =>
    intro i hi hk hnd
    rw [is_prime_loop]
    by_cases hle : i ≤ limit
    · have h0 : i ≠ 0 := by omega
      have h1 : ¬ Int.tmod n i = 0 := by
        intro h
        have := hnd 0 (by simpa using hle)
        exact this (by simpa using Int.dvd_of_tmod_eq_zero h)
      have h2 : ¬ INT_MAX < i + 2 := by
        unfold INT_MAX
        omega
      have hm : ¬ (n = INT_MIN ∧ i = -1) := by omega
      simp only [hle, h0, hm, h1, h2, if_true, if_false]
      apply ih (i + 2) (by omega) (by omega)
      intro j hj
      have := hnd (j + 1) (by push_cast; omega)
      have e : i + 2 * ((j + 1 : Nat) : Int) = i + 2 + 2 * (j : Int) := by push_cast; ring
      rwa [e] at this
    · simp [hle]

theorem is_prime_loop_false (n limit : Int) (hlim : limit ≤ 46340) :
    ∀ k : Nat, ∀ i : Int, 3 ≤ i → (limit + 1 - i).toNat ≤ k →
      (∃ j : Nat, i + 2 * (j : Int) ≤ limit ∧ (i + 2 * (j : Int)) ∣ n) →
      is_prime_loop n limit i = Res.ok false := by
  intro k
  induction k with
  | zero =>
    intro i _ hk hex
    obtain ⟨j, hj, _⟩ := hex
    omega
  | succ k ih =>
    intro i hi hk hex
    obtain ⟨j, hj, hd⟩ := hex
    rw [is_prime_loop]
    have hle : i ≤ limit := by omega
    have h0 : i ≠ 0 := by omega
    have hm : ¬ (n = INT_MIN ∧ i = -1) := by omega
    by_cases h1 : Int.tmod n i = 0
    · simp [hle, h0, hm, h1]
    · have h2 : ¬ INT_MAX < i + 2 := by
        unfold INT_MAX
        omega
      simp only [hle, h0, hm, h1, h2, if_true, if_false]
      cases j with
      | zero =>
        exfalso
        apply h1
        apply Int.tmod_eq_zero_of_dvd
        simpa using hd
      | succ j =>
        have e : i + 2 * ((j + 1 : Nat) : Int) = i + 2 + 2 * (j : Int) := by push_cast; ring
        rw [e] at hj hd
        exact ih (i + 2) (by omega) (by omega) ⟨j, hj, hd⟩

/-! ## `is_prime` decides primality -/

theorem is_prime_odd (N : Nat) (h3 : 3 ≤ N) (hodd : N % 2 = 1) (hN : N < 2 ^ 31) :
    is_prime (N : Int) = Res.ok (decide (Nat.Prime N)) := by
  have hlimit : double_to_int (sqrt_double N) = ((Nat.sqrt N : Nat) : Int) :=
    double_to_int_sqrt_double N hN
  have hsq : Nat.sqrt N < 2 ^ 16 := by
    apply Nat.sqrt_lt.2
    calc N < 2 ^ 31 := hN
      _ ≤ 2 ^ 16 * 2 ^ 16 := by norm_num
  have hlim : ((Nat.sqrt N : Nat) : Int) ≤ 46340 := by
    have h : Nat.sqrt N ≤ 46340 := by
      have : Nat.sqrt N < 46341 := by
        apply Nat.sqrt_lt.2
        calc N < 2 ^ 31 := hN
          _ ≤ 46341 * 46341 := by norm_num
      omega
    exact_mod_cast h
  have hn2 : ¬ ((N : Int) < 2) := by omega
  have hmod : ¬ Int.tmod (N : Int) 2 = 0 := by
    intro h
    have h2 : (2 : Int) ∣ (N : Int) := Int.dvd_of_tmod_eq_zero h
    have h3 : (2 : Nat) ∣ N := by exact_mod_cast h2
    omega
  unfold is_prime
  simp only [hn2, hmod, if_false, Int.toNat_ofNat, hlimit]
  by_cases hp : Nat.Prime N
  · simp only [hp, decide_True]
    apply is_prime_loop_true _ _ hlim _ 3 (le_refl _) (le_refl _)
    intro j hj hd
    have hj2 : 3 + 2 * j ≤ Nat.sqrt N := by exact_mod_cast hj
    have hd2 : (3 + 2 * j) ∣ N := by exact_mod_cast hd
    exact (Nat.prime_def_le_sqrt.1 hp).2 (3 + 2 * j) (by omega) hj2 hd2
  · simp only [hp, decide_False]
    apply is_prime_loop_false _ _ hlim _ 3 (le_refl _) (le_refl _)
    have hex : ∃ m, 2 ≤ m ∧ m ≤ Nat.sqrt N ∧ m ∣ N := by
      by_contra hcon
      apply hp
      apply Nat.prime_def_le_sqrt.2
      refine ⟨by omega, ?_⟩
      intro m hm1 hm2 hm3
      exact hcon ⟨m, hm1, hm2, hm3⟩
    obtain ⟨m, hm1, hm2, hm3⟩ := hex
    have hmodd : m % 2 = 1 := by
      by_contra hc
      have h2m : 2 ∣ m := by omega
      have : 2 ∣ N := Nat.dvd_trans h2m hm3
      omega
    refine ⟨(m - 3) / 2, ?_, ?_⟩
    · have : 3 + 2 * ((m - 3) / 2) = m := by omega
      have h : 3 + 2 * ((m - 3) / 2) ≤ Nat.sqrt N := by omega
      exact_mod_cast h
    · have : 3 + 2 * ((m - 3) / 2) = m := by omega
      have h : (3 + 2 * ((m - 3) / 2)) ∣ N := by rw [this]; exact hm3
      exact_mod_cast h

/-- For every `int` value, `is_prime` returns a boolean, and that boolean says whether
the value is a prime natural number. -/
theorem is_prime_eq (n : Int) (hhi : n ≤ INT_MAX) :
    is_prime n = Res.ok (decide (Nat.Prime n.toNat)) := by
  by_cases h2 : n < 2
  · have hnp : ¬ Nat.Prime n.toNat := by
      intro hp
      have := hp.two_le
      omega
    simp [is_prime, h2, hnp]
  · obtain ⟨N, rfl⟩ : ∃ N : Nat, n = (N : Int) := ⟨n.toNat, by omega⟩
    have hN2 : 2 ≤ N := by omega
    by_cases hev : N % 2 = 0
    · have hmod : Int.tmod (N : Int) 2 = 0 := by
        apply Int.tmod_eq_zero_of_dvd
        have : (2 : Nat) ∣ N := by omega
        exact_mod_cast this
      unfold is_prime
      simp only [h2, hmod, if_true, if_false, Int.toNat_ofNat]
      congr 1
      by_cases hN : N = 2
      · subst hN
        simp [Nat.prime_two]
      · have hnp : ¬ Nat.Prime N := by
          intro hp
          have := (Nat.Prime.eq_one_or_self_of_dvd hp 2 (by omega))
          omega
        have hne : ¬ ((N : Int) = 2) := by omega
        simp [hnp, hne]
    · have := is_prime_odd N (by omega) (by omega) (by
        unfold INT_MAX at hhi
        have : (N : Int) < 2147483648 := by omega
        have h : N < 2147483648 := by exact_mod_cast this
        calc N < 2147483648 := h
          _ = 2 ^ 31 := by norm_num)
      simpa using this

theorem mathPrime_iff (n : Int) : MathPrime n ↔ Nat.Prime n.toNat := by
  constructor
  · rintro ⟨h2, hd⟩
    obtain ⟨N, rfl⟩ : ∃ N : Nat, n = (N : Int) := ⟨n.toNat, by omega⟩
    simp only [Int.toNat_ofNat]
    apply Nat.prime_def.2
    refine ⟨by omega, ?_⟩
    intro m hm
    have hmpos : 0 < m := Nat.pos_of_dvd_of_pos hm (by omega)
    have := hd (m : Int) (by exact_mod_cast hmpos) (by exact_mod_cast hm)
    rcases this with h | h
    · left; exact_mod_cast h
    · right; exact_mod_cast h
  · intro hp
    have h2 := hp.two_le
    obtain ⟨N, rfl⟩ : ∃ N : Nat, n = (N : Int) := ⟨n.toNat, by omega⟩
    simp only [Int.toNat_ofNat] at hp h2
    refine ⟨by omega, ?_⟩
    intro d hd0 hdn
    obtain ⟨D, rfl⟩ : ∃ D : Nat, d = (D : Int) := ⟨d.toNat, by omega⟩
    have hDN : D ∣ N := by exact_mod_cast hdn
    rcases Nat.Prime.eq_one_or_self_of_dvd hp D hDN with h | h
    · left; exact_mod_cast h
    · right; exact_mod_cast h

/-! ## The enumeration loop -/

theorem mem_int_range (k : Nat) : ∀ (i x : Int), x ∈ int_range i k ↔ i ≤ x ∧ x < i + k := by
  induction k with
  | zero =>
    intro i x
    simp only [int_range, List.not_mem_nil, false_iff]
    push_cast
    omega
  | succ k ih =>
    intro i x
    simp only [int_range, List.mem_cons, ih]
    push_cast
    omega

theorem int_range_pairwise (k : Nat) : ∀ i : Int, (int_range i k).Pairwise (· < ·) := by
  induction k with
  | zero => intro i; simp [int_range]
  | succ k ih =>
    intro i
    simp only [int_range, List.pairwise_cons]
    refine ⟨?_, ih (i + 1)⟩
    intro x hx
    have := (mem_int_range k (i + 1) x).1 hx
    omega

/-- Below `INT_MAX` the loop appends to `out`, in order, the primes among the
remaining candidates `i, …, n`. -/
theorem primes_up_to_loop_eq (n : Int) (hn : n < INT_MAX) :
    ∀ (k : Nat) (i : Int) (out : List Int), (n + 1 - i).toNat = k →
      primes_up_to_loop n i out
        = Res.ok (out ++ (int_range i k).filter (fun x => decide (Nat.Prime x.toNat))) := by
  intro k
  induction k with
  | zero =>
    intro i out hk
    rw [primes_up_to_loop]
    have : ¬ i ≤ n := by omega
    simp [this, int_range]
  | succ k ih =>
    intro i out hk
    rw [primes_up_to_loop]
    have hle : i ≤ n := by omega
    have hip : is_prime i = Res.ok (decide (Nat.Prime i.toNat)) :=
      is_prime_eq i (by omega)
    have hov : ¬ INT_MAX < i + 1 := by omega
    simp only [hle, if_true, hip, hov, if_false]
    rw [ih (i + 1) _ (by omega)]
    congr 1
    by_cases hp : Nat.Prime i.toNat
    · simp [hp, int_range, List.filter_cons]
    · simp [hp, int_range, List.filter_cons]

/-- At `n = INT_MAX` the exit test `i <= n` never fails, and the increment of the
counter at `i = INT_MAX` overflows. -/
theorem primes_up_to_loop_int_max :
    ∀ (k : Nat) (i : Int) (out : List Int), i ≤ INT_MAX → (INT_MAX + 1 - i).toNat = k →
      primes_up_to_loop INT_MAX i out = Res.overflow := by
  intro k
  induction k with
  | zero =>
    intro i out hi hk
    omega
  | succ k ih =>
    intro i out hi hk
    rw [primes_up_to_loop]
    have hip : is_prime i = Res.ok (decide (Nat.Prime i.toNat)) := is_prime_eq i hi
    simp only [hi, if_true, hip]
    by_cases hov : INT_MAX < i + 1
    · simp [hov]
    · simp only [hov, if_false]
      exact ih (i + 1) _ (by omega) (by omega)

theorem primes_up_to_eq (n : Int) (hn : n < INT_MAX) :
    primes_up_to n
      = Res.ok ((int_range 2 (n - 1).toNat).filter (fun x => decide (Nat.Prime x.toNat))) := by
  unfold primes_up_to
  rw [primes_up_to_loop_eq n hn (n - 1).toNat 2 [] (by omega)]
  simp

theorem primes_up_to_int_max : primes_up_to INT_MAX = Res.overflow := by
  unfold primes_up_to
  exact primes_up_to_loop_int_max _ 2 [] (by decide) rfl

theorem mem_primes_list (n p : Int) :
    p ∈ (int_range 2 (n - 1).toNat).filter (fun x => decide (Nat.Prime x.toNat))
      ↔ 2 ≤ p ∧ p ≤ n ∧ Nat.Prime p.toNat := by
  simp only [List.mem_filter, mem_int_range, decide_eq_true_eq]
  constructor
  · rintro ⟨⟨h1, h2⟩, h3⟩
    exact ⟨h1, by omega, h3⟩
  · rintro ⟨h1, h2, h3⟩
    exact ⟨⟨h1, by omega⟩, h3⟩

theorem primes_list_pairwise (n : Int) :
    ((int_range 2 (n - 1).toNat).filter (fun x => decide (Nat.Prime x.toNat))).Pairwise (· < ·) :=
  List.Pairwise.filter _ (int_range_pairwise _ _)

theorem is_prime_true_iff (p : Int) (hp : p ≤ INT_MAX) :
    is_prime p = Res.ok true ↔ Nat.Prime p.toNat := by
  rw [is_prime_eq p hp]
  simp

theorem is_prime_false_iff (p : Int) (hp : p ≤ INT_MAX) :
    is_prime p = Res.ok false ↔ ¬ Nat.Prime p.toNat := by
  rw [is_prime_eq p hp]
  simp

theorem is_prime_seventeen : is_prime 17 = Res.ok true := by
  rw [is_prime_eq 17 (by decide)]
  norm_num [Int.toNat]

theorem is_prime_hundred : is_prime 100 = Res.ok false := by
  rw [is_prime_eq 100 (by decide)]
  norm_num [Int.toNat]

theorem primes_up_to_ten : primes_up_to 10 = Res.ok [2, 3, 5, 7] := by
  rw [primes_up_to_eq 10 (by decide)]
  norm_num [int_range, List.filter_cons, Int.toNat]

theorem primes_up_to_two : primes_up_to 2 = Res.ok [2] := by
  rw [primes_up_to_eq 2 (by decide)]
  norm_num [int_range, List.filter_cons, Int.toNat]

/-! ## The square-root bound and the counter of the trial-division loop -/

theorem limit_eq_sqrt (n : Int) (hhi : n ≤ INT_MAX) :
    double_to_int (sqrt_double n.toNat) = ((Nat.sqrt n.toNat : Nat) : Int)
      ∧ double_to_int (sqrt_double n.toNat) ≤ 46340 := by
  have hN : n.toNat < 2 ^ 31 := by
    unfold INT_MAX at hhi
    have h : n.toNat < 2147483648 := by omega
    calc n.toNat < 2147483648 := h
      _ = 2 ^ 31 := by norm_num
  have h1 := double_to_int_sqrt_double n.toNat hN
  have h2 : Nat.sqrt n.toNat < 46341 := by
    apply Nat.sqrt_lt.2
    calc n.toNat < 2 ^ 31 := hN
      _ ≤ 46341 * 46341 := by norm_num
  refine ⟨h1, ?_⟩
  rw [h1]
  have : ((Nat.sqrt n.toNat : Nat) : Int) < 46341 := by exact_mod_cast h2
  have e : Int.ofNat (Nat.sqrt n.toNat) = ((Nat.sqrt n.toNat : Nat) : Int) := rfl
  omega

theorem is_prime_loop_trace_bounds (n limit : Int) (hlim : limit ≤ 46340) :
    ∀ k : Nat, ∀ i : Int, 3 ≤ i → i ≤ 46342 → (limit + 1 - i).toNat ≤ k →
      ∀ x ∈ is_prime_loop_trace n limit i, 3 ≤ x ∧ x ≤ 46342 := by
  intro k
  induction k with
  | zero =>
    intro i hi3 hi hk x hx
    rw [is_prime_loop_trace] at hx
    have : ¬ i ≤ limit := by omega
    simp only [this, if_false, List.mem_singleton] at hx
    omega
  | succ k ih =>
    intro i hi3 hi hk x hx
    rw [is_prime_loop_trace] at hx
    rcases List.mem_cons.1 hx with h | h
    · omega
    · by_cases hle : i ≤ limit
      · simp only [hle, if_true] at h
        split at h
        · simp at h
        · split at h
          · simp at h
          · split at h
            · simp at h
            · split at h
              · simp at h
              · exact ih (i + 2) (by omega) (by omega) (by omega) x h
      · simp [hle] at h

theorem is_prime_loop_trace_length (n limit : Int) :
    ∀ k : Nat, ∀ i : Int, (limit + 2 - i).toNat ≤ 2 * k →
      (is_prime_loop_trace n limit i).length ≤ k + 1 := by
  intro k
  induction k with
  | zero =>
    intro i hk
    rw [is_prime_loop_trace]
    have : ¬ i ≤ limit := by omega
    simp [this]
  | succ k ih =>
    intro i hk
    rw [is_prime_loop_trace]
    by_cases hle : i ≤ limit
    · simp only [hle, if_true, List.length_cons]
      have := ih (i + 2) (by omega)
      split
      · simp
      · split
        · simp
        · split
          · simp
          · split
            · simp
            · omega
    · simp [hle]

theorem int_range_append (a : Nat) : ∀ (i : Int) (b : Nat),
    int_range i (a + b) = int_range i a ++ int_range (i + a) b := by
  induction a with
  | zero => intro i b; simp [int_range]
  | succ a ih =>
    intro i b
    have e : a + 1 + b = (a + b) + 1 := by omega
    rw [e]
    have e2 : i + ((a + 1 : Nat) : Int) = i + 1 + (a : Int) := by
      push_cast
      omega
    simp only [int_range, List.cons_append, ih (i + 1) b, e2]

theorem prime_int_max : Nat.Prime 2147483647 := by
  have h : (mersenne 31).Prime := lucas_lehmer_sufficiency _ (by norm_num) (by norm_num)
  have e : mersenne 31 = 2147483647 := by norm_num [mersenne]
  rwa [e] at h

/-! ## The incremented-bound loop against the square-root loop -/

/-- With an exact bound `limit = floor(sqrt(n))`, the loop on `d*d <= n` and the loop on
`i <= limit` take the same branches as long as the product `d*d` does not overflow:
either the product type holds `46341 * 46341`, or a divisor of `n` stops the run
before the counter reaches 46341. -/
theorem is_prime_sq_loop_eq (M n limit : Int) (hM : INT_MAX ≤ M) (hn : n ≤ INT_MAX)
    (hl0 : 0 ≤ limit) (hl1 : limit * limit ≤ n) (hl2 : n < (limit + 1) * (limit + 1)) :
    ∀ k : Nat, ∀ d : Int, 3 ≤ d → d ≤ 46341 → d % 2 = 1 → (46343 - d).toNat ≤ 2 * k →
      (46341 * 46341 ≤ M ∨ (d ≤ 46339 ∧ (46339 * 46339 ≤ n →
          ∃ j : Nat, d + 2 * (j : Int) ≤ 46339 ∧ (d + 2 * (j : Int)) ∣ n))) →
      is_prime_sq_loop M n d = is_prime_loop n limit d := by
  have hlim : limit ≤ 46340 := by
    by_contra hc
    have h1 : 46341 ≤ limit := by omega
    have h2 : (46341 : Int) * 46341 ≤ limit * limit := by nlinarith
    unfold INT_MAX at hn
    omega
  intro k
  induction k with
  | zero =>
    intro d h3 hd _ hk _
    omega
  | succ k ih =>
    intro d h3 hd hodd hk hI
    have hcmp : d * d ≤ n ↔ d ≤ limit := by
      constructor
      · intro h
        by_contra hc
        have h1 : limit + 1 ≤ d := by omega
        have h2 : (limit + 1) * (limit + 1) ≤ d * d := by nlinarith
        omega
      · intro h
        have h2 : d * d ≤ limit * limit := by nlinarith
        omega
    have hprod : ¬ M < d * d := by
      rcases hI with hw | ⟨h39, _⟩
      · have : d * d ≤ 46341 * 46341 := by nlinarith
        omega
      · have : d * d ≤ 46339 * 46339 := by nlinarith
        unfold INT_MAX at hM
        omega
    rw [is_prime_sq_loop, is_prime_loop]
    simp only [hprod, if_false, hcmp]
    by_cases hle : d ≤ limit
    · have h0 : d ≠ 0 := by omega
      have hm : ¬ (n = INT_MIN ∧ d = -1) := by omega
      have h2 : ¬ INT_MAX < d + 2 := by
        unfold INT_MAX
        omega
      by_cases h1 : Int.tmod n d = 0
      · simp [hle, h0, hm, h1]
      · simp only [hle, h0, hm, h1, h2, if_true, if_false]
        have g1 : (3 : Int) ≤ d + 2 := by omega
        have g2 : d + 2 ≤ 46341 := by omega
        have g3 : (d + 2) % 2 = 1 := by
          clear hI ih
          omega
        have g4 : (46343 - (d + 2)).toNat ≤ 2 * k := by
          clear hI ih
          omega
        apply ih (d + 2) g1 g2 g3 g4
        rcases hI with hw | ⟨h39, hdiv⟩
        · exact Or.inl hw
        · right
          have hnd : ¬ d ∣ n := fun h => h1 (Int.tmod_eq_zero_of_dvd h)
          have hshift : 46339 * 46339 ≤ n →
              ∃ j : Nat, d + 2 + 2 * (j : Int) ≤ 46339 ∧ (d + 2 + 2 * (j : Int)) ∣ n := by
            intro hbig
            obtain ⟨j, hj, hjd⟩ := hdiv hbig
            cases j with
            | zero =>
              exfalso
              apply hnd
              simpa using hjd
            | succ j =>
              have e : d + 2 * ((j + 1 : Nat) : Int) = d + 2 + 2 * (j : Int) := by
                push_cast
                ring
              rw [e] at hj hjd
              exact ⟨j, hj, hjd⟩
          refine ⟨?_, hshift⟩
          by_contra hc
          have hd39 : d = 46339 := by omega
          have hbig : 46339 * 46339 ≤ n := by
            have := hcmp.2 hle
            rw [hd39] at this
            exact this
          obtain ⟨j, hj, _⟩ := hshift hbig
          omega
    · simp [hle]

/-- When the product `d*d` is an `int`, a bound `n ≥ 46339 * 46339` without an odd
divisor up to 46339 drives the counter to 46341, whose square exceeds `INT_MAX`. -/
theorem is_prime_sq_loop_overflow (n : Int) (hbig : 46339 * 46339 ≤ n) :
    ∀ k : Nat, ∀ d : Int, 3 ≤ d → d ≤ 46341 → d % 2 = 1 → (46343 - d).toNat ≤ 2 * k →
      (∀ j : Nat, d + 2 * (j : Int) ≤ 46339 → ¬ (d + 2 * (j : Int)) ∣ n) →
      is_prime_sq_loop INT_MAX n d = Res.overflow := by
  intro k
  induction k with
  | zero =>
    intro d h3 hd _ hk _
    omega
  | succ k ih =>
    intro d h3 hd hodd hk hnd
    rw [is_prime_sq_loop]
    by_cases h41 : d = 46341
    · subst h41
      have : INT_MAX < (46341 : Int) * 46341 := by decide
      rw [if_pos this]
    · have h39 : d ≤ 46339 := by omega
      have hdd : d * d ≤ 46339 * 46339 := by nlinarith
      have hprod : ¬ INT_MAX < d * d := by
        unfold INT_MAX
        omega
      have hle : d * d ≤ n := by omega
      have h0 : d ≠ 0 := by omega
      have hm : ¬ (n = INT_MIN ∧ d = -1) := by omega
      have h1 : ¬ Int.tmod n d = 0 := by
        intro h
        have := hnd 0 (by simpa using h39)
        exact this (by simpa using Int.dvd_of_tmod_eq_zero h)
      have h2 : ¬ INT_MAX < d + 2 := by
        unfold INT_MAX
        omega
      simp only [hprod, hle, h0, hm, h1, h2, if_true, if_false]
      apply ih (d + 2) (by omega) (by omega) (by omega) (by omega)
      intro j hj
      have := hnd (j + 1) (by push_cast; omega)
      have e : d + 2 * ((j + 1 : Nat) : Int) = d + 2 + 2 * (j : Int) := by
        push_cast
        ring
      rwa [e] at this

theorem is_prime_sq_int_max : is_prime_sq INT_MAX INT_MAX = Res.overflow := by
  have h1 : ¬ INT_MAX < 2 := by decide
  have h2 : ¬ Int.tmod INT_MAX 2 = 0 := by decide
  unfold is_prime_sq
  simp only [h1, h2, if_false]
  apply is_prime_sq_loop_overflow INT_MAX (by decide) 23170 3
    (by decide) (by decide) (by decide) (by decide)
  intro j hj hd
  have hj2 : 3 + 2 * j ≤ 46339 := by exact_mod_cast hj
  have hd2 : (3 + 2 * j) ∣ 2147483647 := by
    have : ((3 + 2 * j : Nat) : Int) ∣ ((2147483647 : Nat) : Int) := by
      push_cast
      exact hd
    exact_mod_cast this
  rcases Nat.Prime.eq_one_or_self_of_dvd prime_int_max _ hd2 with h | h
  · omega
  · omega

theorem is_prime_int_max : is_prime INT_MAX = Res.ok true := by
  rw [is_prime_true_iff INT_MAX (le_refl _)]
  exact prime_int_max

/-! ## The claims -/

/-- C1: for every 32-bit signed integer `n`, `is_prime(n)` returns `true` exactly when
`n` is a prime number in the mathematical sense and `false` exactly when it is not;
in particular `is_prime(17)` is `true` and `is_prime(100)` is `false`. -/
theorem is_prime_iff_mathPrime (n : Int) (_hlo : INT_MIN ≤ n) (hhi : n ≤ INT_MAX) :
    (is_prime n = Res.ok true ↔ MathPrime n) ∧ (is_prime n = Res.ok false ↔ ¬ MathPrime n)
      ∧ is_prime 17 = Res.ok true ∧ is_prime 100 = Res.ok false := by
  refine ⟨?_, ?_, is_prime_seventeen, is_prime_hundred⟩
  · rw [mathPrime_iff]
    exact is_prime_true_iff n hhi
  · rw [mathPrime_iff]
    exact is_prime_false_iff n hhi

theorem is_prime_iff_mathPrime_witness :
    INT_MIN ≤ 91 ∧ (91 : Int) ≤ INT_MAX ∧
      ((is_prime 91 = Res.ok true ↔ MathPrime 91) ∧ (is_prime 91 = Res.ok false ↔ ¬ MathPrime 91)
        ∧ is_prime 17 = Res.ok true ∧ is_prime 100 = Res.ok false) :=
  ⟨by decide, by decide, is_prime_iff_mathPrime 91 (by decide) (by decide)⟩

/-- C2: for every `int` bound `n` below `INT_MAX`, `primes_up_to(n)` returns exactly the
ascending list of all mathematical primes `p` with `2 ≤ p ≤ n`, in particular
`primes_up_to(10) = [2, 3, 5, 7]` and `primes_up_to(2) = [2]`; at `n = INT_MAX` no
list is returned, because the increment of the loop counter overflows. -/
theorem primes_up_to_exact (n : Int) (_hlo : INT_MIN ≤ n) (_hhi : n ≤ INT_MAX) :
    (n < INT_MAX → ∃ l : List Int, primes_up_to n = Res.ok l ∧ l.Sorted (· < ·)
        ∧ ∀ p : Int, p ∈ l ↔ 2 ≤ p ∧ p ≤ n ∧ MathPrime p)
      ∧ (n = INT_MAX → primes_up_to n = Res.overflow)
      ∧ primes_up_to 10 = Res.ok [2, 3, 5, 7] ∧ primes_up_to 2 = Res.ok [2] := by
  refine ⟨?_, ?_, primes_up_to_ten, primes_up_to_two⟩
  · intro hlt
    refine ⟨_, primes_up_to_eq n hlt, primes_list_pairwise n, ?_⟩
    intro p
    rw [mathPrime_iff]
    exact mem_primes_list n p
  · intro h
    rw [h]
    exact primes_up_to_int_max

theorem primes_up_to_exact_witness :
    (INT_MIN ≤ 10 ∧ (10 : Int) ≤ INT_MAX ∧ (10 : Int) < INT_MAX
        ∧ ∃ l : List Int, primes_up_to 10 = Res.ok l ∧ l.Sorted (· < ·)
          ∧ ∀ p : Int, p ∈ l ↔ 2 ≤ p ∧ p ≤ 10 ∧ MathPrime p)
      ∧ (INT_MIN ≤ INT_MAX ∧ INT_MAX ≤ INT_MAX ∧ primes_up_to INT_MAX = Res.overflow) :=
  ⟨⟨by decide, by decide, by decide,
      (primes_up_to_exact 10 (by decide) (by decide)).1 (by decide)⟩,
    ⟨by decide, by decide, (primes_up_to_exact INT_MAX (by decide) (by decide)).2.1 rfl⟩⟩

/-- C3: for every `int` bound `n` below `INT_MAX`, an integer `p` occurs in
`primes_up_to(n)` if and only if `2 ≤ p ≤ n` and `is_prime(p)` is `true`, and every
such `p` occurs exactly once; at `n = INT_MAX` no list is returned at all, although
`p = 2` satisfies `2 ≤ p ≤ n` and `is_prime(p) = true`. -/
theorem primes_up_to_mem_once (n : Int) (_hlo : INT_MIN ≤ n) (_hhi : n ≤ INT_MAX) :
    (n < INT_MAX → ∃ l : List Int, primes_up_to n = Res.ok l
        ∧ ∀ p : Int, (p ∈ l ↔ 2 ≤ p ∧ p ≤ n ∧ is_prime p = Res.ok true)
            ∧ (2 ≤ p ∧ p ≤ n ∧ is_prime p = Res.ok true → l.count p = 1))
      ∧ (n = INT_MAX → is_prime 2 = Res.ok true ∧ ¬ ∃ l : List Int, primes_up_to n = Res.ok l) := by
  have hmem : ∀ p : Int, p ≤ INT_MAX →
      (p ∈ (int_range 2 (n - 1).toNat).filter (fun x => decide (Nat.Prime x.toNat))
        ↔ 2 ≤ p ∧ p ≤ n ∧ is_prime p = Res.ok true) := by
    intro p hp
    rw [is_prime_true_iff p hp]
    exact mem_primes_list n p
  have hmem2 : ∀ p : Int,
      (p ∈ (int_range 2 (n - 1).toNat).filter (fun x => decide (Nat.Prime x.toNat))
        ↔ 2 ≤ p ∧ p ≤ n ∧ is_prime p = Res.ok true) := by
    intro p
    by_cases hp : p ≤ INT_MAX
    · exact hmem p hp
    · constructor
      · intro h
        have := (mem_primes_list n p).1 h
        omega
      · rintro ⟨_, h, _⟩
        omega
  constructor
  · intro hlt
    refine ⟨_, primes_up_to_eq n hlt, ?_⟩
    intro p
    refine ⟨hmem2 p, ?_⟩
    intro h
    exact List.count_eq_one_of_mem ((primes_list_pairwise n).imp (fun h => ne_of_lt h))
      ((hmem2 p).2 h)
  · intro h
    refine ⟨by simp [is_prime], ?_⟩
    rintro ⟨l, hl⟩
    rw [h, primes_up_to_int_max] at hl
    exact Res.noConfusion hl

theorem primes_up_to_mem_once_witness :
    (INT_MIN ≤ 10 ∧ (10 : Int) ≤ INT_MAX ∧ (10 : Int) < INT_MAX
        ∧ ∃ l : List Int, primes_up_to 10 = Res.ok l
          ∧ ∀ p : Int, (p ∈ l ↔ 2 ≤ p ∧ p ≤ 10 ∧ is_prime p = Res.ok true)
              ∧ (2 ≤ p ∧ p ≤ 10 ∧ is_prime p = Res.ok true → l.count p = 1))
      ∧ (INT_MIN ≤ INT_MAX ∧ INT_MAX ≤ INT_MAX
        ∧ is_prime 2 = Res.ok true ∧ ¬ ∃ l : List Int, primes_up_to INT_MAX = Res.ok l) :=
  ⟨⟨by decide, by decide, by decide,
      (primes_up_to_mem_once 10 (by decide) (by decide)).1 (by decide)⟩,
    ⟨by decide, by decide, (primes_up_to_mem_once INT_MAX (by decide) (by decide)).2 rfl⟩⟩

/-- C4: for every `int` bound `n` below `INT_MAX`, the list `primes_up_to(n)` is strictly
ascending (each element is strictly less than the next) and every element `x` of it
satisfies `is_prime(x) = true`; at `n = INT_MAX` the call yields a signed overflow
instead of a list. -/
theorem primes_up_to_ascending_prime (n : Int) (_hlo : INT_MIN ≤ n) (_hhi : n ≤ INT_MAX) :
    (n < INT_MAX → ∃ l : List Int, primes_up_to n = Res.ok l ∧ l.Chain' (· < ·)
        ∧ ∀ x ∈ l, is_prime x = Res.ok true)
      ∧ (n = INT_MAX → primes_up_to n = Res.overflow) := by
  constructor
  · intro hlt
    refine ⟨_, primes_up_to_eq n hlt, (primes_list_pairwise n).chain', ?_⟩
    intro x hx
    have h := (mem_primes_list n x).1 hx
    exact (is_prime_true_iff x (by omega)).2 h.2.2
  · intro h
    rw [h]
    exact primes_up_to_int_max

theorem primes_up_to_ascending_prime_witness :
    (INT_MIN ≤ 10 ∧ (10 : Int) ≤ INT_MAX ∧ (10 : Int) < INT_MAX
        ∧ ∃ l : List Int, primes_up_to 10 = Res.ok l ∧ l.Chain' (· < ·)
          ∧ ∀ x ∈ l, is_prime x = Res.ok true)
      ∧ (INT_MIN ≤ INT_MAX ∧ INT_MAX ≤ INT_MAX ∧ primes_up_to INT_MAX = Res.overflow) :=
  ⟨⟨by decide, by decide, by decide,
      (primes_up_to_ascending_prime 10 (by decide) (by decide)).1 (by decide)⟩,
    ⟨by decide, by decide,
      (primes_up_to_ascending_prime INT_MAX (by decide) (by decide)).2 rfl⟩⟩

/-- C5: for every `int` value `n ≥ 2`, `is_prime(n)` is `true` if and only if there is no
integer `d` with `2 ≤ d` and `d * d ≤ n` that divides `n`. -/
theorem is_prime_iff_no_divisor_upto_sqrt (n : Int) (h2 : 2 ≤ n) (hhi : n ≤ INT_MAX) :
    is_prime n = Res.ok true ↔ ¬ ∃ d : Int, 2 ≤ d ∧ d * d ≤ n ∧ d ∣ n := by
  rw [is_prime_true_iff n hhi]
  obtain ⟨N, rfl⟩ : ∃ N : Nat, n = (N : Int) := ⟨n.toNat, by omega⟩
  simp only [Int.toNat_ofNat]
  rw [Nat.prime_def_le_sqrt]
  constructor
  · rintro ⟨_, hnd⟩ ⟨d, hd2, hdd, hdn⟩
    obtain ⟨D, rfl⟩ : ∃ D : Nat, d = (D : Int) := ⟨d.toNat, by omega⟩
    have hD2 : 2 ≤ D := by exact_mod_cast hd2
    have hDD : D * D ≤ N := by exact_mod_cast hdd
    have hDN : D ∣ N := by exact_mod_cast hdn
    exact hnd D hD2 (Nat.le_sqrt.2 hDD) hDN
  · intro hno
    refine ⟨by omega, ?_⟩
    intro m hm2 hms hmN
    apply hno
    refine ⟨(m : Int), by exact_mod_cast hm2, ?_, by exact_mod_cast hmN⟩
    have := Nat.le_sqrt.1 hms
    exact_mod_cast this

theorem is_prime_iff_no_divisor_upto_sqrt_witness :
    (2 : Int) ≤ 25 ∧ (25 : Int) ≤ INT_MAX
      ∧ (is_prime 25 = Res.ok true ↔ ¬ ∃ d : Int, 2 ≤ d ∧ d * d ≤ 25 ∧ d ∣ 25) :=
  ⟨by decide, by decide, is_prime_iff_no_divisor_upto_sqrt 25 (by decide) (by decide)⟩

/-- C6: for every integer `n < 2` (including `1`, `0` and every negative integer),
`is_prime(n)` is `false`. -/
theorem is_prime_lt_two (n : Int) (h : n < 2) : is_prime n = Res.ok false := by
  simp [is_prime, h]

theorem is_prime_lt_two_witness :
    (-7 : Int) < 2 ∧ is_prime (-7) = Res.ok false :=
  ⟨by decide, is_prime_lt_two (-7) (by decide)⟩

/-- C7: `is_prime(2)` is `true`, and for every even integer `n > 2`, `is_prime(n)` is
`false`. -/
theorem is_prime_two_and_even (n : Int) (hgt : 2 < n) (hev : Even n) :
    is_prime 2 = Res.ok true ∧ is_prime n = Res.ok false := by
  have hmod : Int.tmod n 2 = 0 := Int.tmod_eq_zero_of_dvd (even_iff_two_dvd.1 hev)
  have h1 : ¬ n < 2 := by omega
  have h2 : ¬ n = 2 := by omega
  constructor
  · simp [is_prime]
  · simp [is_prime, h1, hmod, h2]

theorem is_prime_two_and_even_witness :
    (2 : Int) < 100 ∧ Even (100 : Int) ∧ is_prime 2 = Res.ok true ∧ is_prime 100 = Res.ok false :=
  ⟨by decide, by decide, is_prime_two_and_even 100 (by decide) (by decide)⟩

/-- C8: for every integer `n < 2`, `primes_up_to(n)` is the empty sequence, for
instance `primes_up_to(1) = []`. -/
theorem primes_up_to_lt_two (n : Int) (h : n < 2) :
    primes_up_to n = Res.ok [] ∧ primes_up_to 1 = Res.ok [] := by
  have key : ∀ m : Int, m < 2 → primes_up_to m = Res.ok [] := by
    intro m hm
    unfold primes_up_to
    rw [primes_up_to_loop]
    have : ¬ (2 : Int) ≤ m := by omega
    simp [this]
  exact ⟨key n h, key 1 (by decide)⟩

theorem primes_up_to_lt_two_witness :
    (-3 : Int) < 2 ∧ primes_up_to (-3) = Res.ok [] ∧ primes_up_to 1 = Res.ok [] :=
  ⟨by decide, primes_up_to_lt_two (-3) (by decide)⟩

/-- C9: for all 32-bit signed integers `a` and `b` whose mathematical sum lies in the
`int` range, `add(a, b)` returns the mathematical sum `a + b`; in particular
`add(2, 3) = 5` and `add(-1, 1) = 0`. -/
theorem add_eq_sum (a b : Int) (_ha : INT_MIN ≤ a ∧ a ≤ INT_MAX) (_hb : INT_MIN ≤ b ∧ b ≤ INT_MAX)
    (hs : INT_MIN ≤ a + b ∧ a + b ≤ INT_MAX) :
    add a b = Res.ok (a + b) ∧ add 2 3 = Res.ok 5 ∧ add (-1) 1 = Res.ok 0 := by
  refine ⟨?_, by decide, by decide⟩
  unfold add
  have : ¬ (a + b < INT_MIN ∨ INT_MAX < a + b) := by omega
  simp [this]

theorem add_eq_sum_witness :
    (INT_MIN ≤ 2147483000 ∧ (2147483000 : Int) ≤ INT_MAX) ∧ (INT_MIN ≤ 647 ∧ (647 : Int) ≤ INT_MAX)
      ∧ (INT_MIN ≤ (2147483000 : Int) + 647 ∧ (2147483000 : Int) + 647 ≤ INT_MAX)
      ∧ add 2147483000 647 = Res.ok (2147483000 + 647)
      ∧ add 2 3 = Res.ok 5 ∧ add (-1) 1 = Res.ok 0 :=
  ⟨by decide, by decide, by decide,
    add_eq_sum 2147483000 647 (by decide) (by decide) (by decide)⟩

/-- C10: for all `int` values `a` and `b` whose sum does not overflow, `add(a, b)` equals
`add(b, a)` (both return the same value), and `add(a, 0)` returns `a`. -/
theorem add_comm_and_zero (a b : Int) (ha : INT_MIN ≤ a ∧ a ≤ INT_MAX)
    (_hb : INT_MIN ≤ b ∧ b ≤ INT_MAX) (hs : INT_MIN ≤ a + b ∧ a + b ≤ INT_MAX) :
    add a b = add b a ∧ (∃ s : Int, add a b = Res.ok s ∧ add b a = Res.ok s)
      ∧ add a 0 = Res.ok a := by
  have h1 : ¬ (a + b < INT_MIN ∨ INT_MAX < a + b) := by omega
  have h2 : ¬ (b + a < INT_MIN ∨ INT_MAX < b + a) := by omega
  have h3 : ¬ (a + 0 < INT_MIN ∨ INT_MAX < a + 0) := by omega
  refine ⟨?_, ⟨a + b, ?_, ?_⟩, ?_⟩
  · unfold add
    simp [h1, h2, add_comm]
  · unfold add
    simp [h1]
  · unfold add
    rw [if_neg h2, add_comm]
  · unfold add
    rw [if_neg h3, add_zero]

theorem add_comm_and_zero_witness :
    (INT_MIN ≤ -5 ∧ (-5 : Int) ≤ INT_MAX) ∧ (INT_MIN ≤ 12 ∧ (12 : Int) ≤ INT_MAX)
      ∧ (INT_MIN ≤ (-5 : Int) + 12 ∧ (-5 : Int) + 12 ≤ INT_MAX)
      ∧ add (-5) 12 = add 12 (-5)
      ∧ (∃ s : Int, add (-5) 12 = Res.ok s ∧ add 12 (-5) = Res.ok s)
      ∧ add (-5) 0 = Res.ok (-5) :=
  ⟨by decide, by decide, by decide,
    add_comm_and_zero (-5) 12 (by decide) (by decide) (by decide)⟩

/-- C11: `primes_up_to` returns a sequence for every `int` bound `n` below `INT_MAX`;
at `n = INT_MAX` it does not: whatever value the counter `i` has, the test `i <= n`
holds, and the run ends in the signed overflow of `++i` instead of a returned
sequence. -/
theorem primes_up_to_returns_iff (n : Int) (_hlo : INT_MIN ≤ n) (_hhi : n ≤ INT_MAX) :
    (n < INT_MAX → ∃ l : List Int, primes_up_to n = Res.ok l)
      ∧ (n = INT_MAX → primes_up_to n = Res.overflow
          ∧ ∀ (i : Int) (out : List Int), INT_MIN ≤ i → i ≤ INT_MAX →
              i ≤ n ∧ primes_up_to_loop n i out = Res.overflow) := by
  constructor
  · intro hlt
    exact ⟨_, primes_up_to_eq n hlt⟩
  · intro h
    subst h
    refine ⟨primes_up_to_int_max, ?_⟩
    intro i out _ hi
    exact ⟨hi, primes_up_to_loop_int_max _ i out hi rfl⟩

theorem primes_up_to_returns_iff_witness :
    (INT_MIN ≤ 10 ∧ (10 : Int) ≤ INT_MAX ∧ (10 : Int) < INT_MAX
        ∧ ∃ l : List Int, primes_up_to 10 = Res.ok l)
      ∧ (INT_MIN ≤ INT_MAX ∧ INT_MAX ≤ INT_MAX ∧ primes_up_to INT_MAX = Res.overflow
        ∧ ∀ (i : Int) (out : List Int), INT_MIN ≤ i → i ≤ INT_MAX →
            i ≤ INT_MAX ∧ primes_up_to_loop INT_MAX i out = Res.overflow) :=
  ⟨⟨by decide, by decide, by decide,
      (primes_up_to_returns_iff 10 (by decide) (by decide)).1 (by decide)⟩,
    ⟨by decide, by decide, (primes_up_to_returns_iff INT_MAX (by decide) (by decide)).2 rfl⟩⟩

/-- C12: `is_prime` is total with no error case: for every 32-bit signed integer `n`
it returns a boolean, and the divisor loop (entered at `i = 3` with the bound
`limit = floor(sqrt(n))`) tests its counter at most 23171 times. -/
theorem is_prime_total (n : Int) (_hlo : INT_MIN ≤ n) (hhi : n ≤ INT_MAX) :
    (∃ b : Bool, is_prime n = Res.ok b)
      ∧ (is_prime_loop_trace n (double_to_int (sqrt_double n.toNat)) 3).length ≤ 23171 := by
  refine ⟨⟨_, is_prime_eq n hhi⟩, ?_⟩
  have hl := (limit_eq_sqrt n hhi).2
  exact is_prime_loop_trace_length n _ 23170 3 (by omega)

theorem is_prime_total_witness :
    INT_MIN ≤ INT_MAX ∧ INT_MAX ≤ INT_MAX ∧ (∃ b : Bool, is_prime INT_MAX = Res.ok b)
      ∧ (is_prime_loop_trace INT_MAX (double_to_int (sqrt_double INT_MAX.toNat)) 3).length
        ≤ 23171 :=
  ⟨by decide, by decide, is_prime_total INT_MAX (by decide) (by decide)⟩

/-- C13: the demonstration program writes exactly the two lines `2 + 3 = 5` and
`Is 17 prime? yes`, each ended by a newline and in that order, and returns the exit
code 0. -/
theorem main_output : main = Res.ok ("2 + 3 = 5\nIs 17 prime? yes\n", 0) := by
  have h1 : add 2 3 = Res.ok 5 := by decide
  unfold main
  rw [h1, is_prime_seventeen]
  rfl

/-- C14: the square-root bound never misses the divisor at a perfect square: for every
integer `k ≥ 2` with `k * k ≤ INT_MAX`, the bound computed for `n = k * k` is `k`
itself and `is_prime(k * k)` is `false`; for every `int` value `n ≥ 0` the bound
`limit` satisfies `limit * limit ≤ n < (limit + 1) * (limit + 1)`; and
`is_prime` is `false` at 9, 25 and 49. -/
theorem perfect_square_not_prime (k : Int) (hk : 2 ≤ k) (hkk : k * k ≤ INT_MAX) :
    is_prime (k * k) = Res.ok false
      ∧ double_to_int (sqrt_double (k * k).toNat) = k
      ∧ (∀ n : Int, 0 ≤ n → n ≤ INT_MAX →
          double_to_int (sqrt_double n.toNat) * double_to_int (sqrt_double n.toNat) ≤ n
          ∧ n < (double_to_int (sqrt_double n.toNat) + 1)
                * (double_to_int (sqrt_double n.toNat) + 1))
      ∧ is_prime 9 = Res.ok false ∧ is_prime 25 = Res.ok false
      ∧ is_prime 49 = Res.ok false := by
  obtain ⟨K, rfl⟩ : ∃ K : Nat, k = (K : Int) := ⟨k.toNat, by omega⟩
  have hK : 2 ≤ K := by exact_mod_cast hk
  have hsq : ((K : Int) * (K : Int)).toNat = K * K := by
    have : ((K : Int) * (K : Int)) = ((K * K : Nat) : Int) := by push_cast; ring
    rw [this, Int.toNat_ofNat]
  have hkey : ∀ m : Nat, 2 ≤ m → (m : Int) * m ≤ INT_MAX → is_prime ((m : Int) * m) = Res.ok false := by
    intro m hm hmm
    rw [is_prime_false_iff _ hmm]
    have : ((m : Int) * (m : Int)).toNat = m * m := by
      have : ((m : Int) * (m : Int)) = ((m * m : Nat) : Int) := by push_cast; ring
      rw [this, Int.toNat_ofNat]
    rw [this]
    exact Nat.not_prime_mul (by omega) (by omega)
  refine ⟨hkey K hK hkk, ?_, ?_, ?_, ?_, ?_⟩
  · rw [(limit_eq_sqrt _ hkk).1, hsq, Nat.sqrt_eq]
  · intro n hn0 hn
    rw [(limit_eq_sqrt n hn).1]
    obtain ⟨N, rfl⟩ : ∃ N : Nat, n = (N : Int) := ⟨n.toNat, by omega⟩
    simp only [Int.toNat_ofNat]
    have h1 := Nat.sqrt_le N
    have h2 := Nat.lt_succ_sqrt N
    constructor
    · exact_mod_cast h1
    · exact_mod_cast h2
  · exact hkey 3 (by omega) (by decide)
  · exact hkey 5 (by omega) (by decide)
  · exact hkey 7 (by omega) (by decide)

theorem perfect_square_not_prime_witness :
    (2 : Int) ≤ 46337 ∧ (46337 : Int) * 46337 ≤ INT_MAX
      ∧ is_prime (46337 * 46337) = Res.ok false
      ∧ double_to_int (sqrt_double ((46337 : Int) * 46337).toNat) = 46337 :=
  ⟨by decide, by decide,
    (perfect_square_not_prime 46337 (by decide) (by decide)).1,
    (perfect_square_not_prime 46337 (by decide) (by decide)).2.1⟩

/-- C16: arithmetic inside `is_prime` is safe for every 32-bit signed `n`: the call ends
in neither a signed overflow nor a division by zero; the bound is
`limit = floor(sqrt(n)) ≤ 46340`; every value `i` the loop counter takes satisfies
`3 ≤ i ≤ 46342`, and whenever the body runs (`i ≤ limit`) the divisor of `n % i` is
not zero and the update `i += 2` stays within `INT_MAX`. -/
theorem is_prime_arith_safe (n : Int) (_hlo : INT_MIN ≤ n) (hhi : n ≤ INT_MAX) :
    (is_prime n ≠ Res.overflow ∧ is_prime n ≠ Res.div_by_zero)
      ∧ double_to_int (sqrt_double n.toNat) = ((Nat.sqrt n.toNat : Nat) : Int)
      ∧ double_to_int (sqrt_double n.toNat) ≤ 46340
      ∧ ∀ i ∈ is_prime_loop_trace n (double_to_int (sqrt_double n.toNat)) 3,
          3 ≤ i ∧ i ≤ 46342
            ∧ (i ≤ double_to_int (sqrt_double n.toNat) →
                i ≤ 46340 ∧ i ≠ 0 ∧ ¬ (n = INT_MIN ∧ i = -1) ∧ i + 2 ≤ INT_MAX) := by
  have hl := limit_eq_sqrt n hhi
  refine ⟨?_, hl.1, hl.2, ?_⟩
  · rw [is_prime_eq n hhi]
    exact ⟨fun h => Res.noConfusion h, fun h => Res.noConfusion h⟩
  · intro i hi
    have hb := is_prime_loop_trace_bounds n _ hl.2 _ 3 (le_refl _) (by omega) (le_refl _) i hi
    refine ⟨hb.1, hb.2, ?_⟩
    intro hle
    have h2 := hl.2
    refine ⟨by omega, by omega, by omega, ?_⟩
    unfold INT_MAX
    omega

theorem is_prime_arith_safe_witness :
    INT_MIN ≤ INT_MAX ∧ INT_MAX ≤ INT_MAX
      ∧ (is_prime INT_MAX ≠ Res.overflow ∧ is_prime INT_MAX ≠ Res.div_by_zero)
      ∧ double_to_int (sqrt_double INT_MAX.toNat) ≤ 46340 :=
  ⟨by decide, by decide, (is_prime_arith_safe INT_MAX (by decide) (by decide)).1,
    (is_prime_arith_safe INT_MAX (by decide) (by decide)).2.2.1⟩

/-- C17: `primes_up_to` is monotone in its bound: for all `int` values `m ≤ n` with
`n < INT_MAX`, `primes_up_to(m)` is an initial segment of `primes_up_to(n)`; for
`1 ≤ n` with `n + 1 < INT_MAX`, `primes_up_to(n + 1)` is `primes_up_to(n)` with
`n + 1` appended if `is_prime(n + 1)` is `true`, and `primes_up_to(n)` otherwise; for
`n + 1 = INT_MAX` the call `primes_up_to(n + 1)` overflows and returns nothing. -/
theorem primes_up_to_monotone (m n : Int) (_hlo : INT_MIN ≤ m) (hmn : m ≤ n)
    (hn : n < INT_MAX) :
    (∃ lm ln : List Int, primes_up_to m = Res.ok lm ∧ primes_up_to n = Res.ok ln ∧ lm <+: ln)
      ∧ (1 ≤ n → n + 1 < INT_MAX → ∃ ln : List Int, primes_up_to n = Res.ok ln
          ∧ primes_up_to (n + 1)
              = Res.ok (if is_prime (n + 1) = Res.ok true then ln ++ [n + 1] else ln))
      ∧ (n + 1 = INT_MAX → primes_up_to (n + 1) = Res.overflow) := by
  refine ⟨?_, ?_, ?_⟩
  · refine ⟨_, _, primes_up_to_eq m (by omega), primes_up_to_eq n hn, ?_⟩
    have e : (n - 1).toNat = (m - 1).toNat + ((n - 1).toNat - (m - 1).toNat) := by omega
    rw [e, int_range_append, List.filter_append]
    exact ⟨_, rfl⟩
  · intro h1 hlt
    refine ⟨_, primes_up_to_eq n hn, ?_⟩
    rw [primes_up_to_eq (n + 1) hlt]
    have e : (n + 1 - 1).toNat = (n - 1).toNat + 1 := by omega
    have e2 : (2 : Int) + ((n - 1).toNat : Int) = n + 1 := by omega
    rw [e, int_range_append, List.filter_append, e2]
    congr 1
    by_cases hp : Nat.Prime (n + 1).toNat
    · have := (is_prime_true_iff (n + 1) (by omega)).2 hp
      simp [this, int_range, List.filter_cons, hp]
    · have hne : ¬ is_prime (n + 1) = Res.ok true := fun h =>
        hp ((is_prime_true_iff (n + 1) (by omega)).1 h)
      simp [hne, int_range, List.filter_cons, hp]
  · intro h
    rw [h]
    exact primes_up_to_int_max

theorem primes_up_to_monotone_witness :
    (INT_MIN ≤ 7 ∧ (7 : Int) ≤ 10 ∧ (10 : Int) < INT_MAX
        ∧ (∃ lm ln : List Int, primes_up_to 7 = Res.ok lm ∧ primes_up_to 10 = Res.ok ln
            ∧ lm <+: ln))
      ∧ (INT_MIN ≤ 2147483646 ∧ (2147483646 : Int) ≤ 2147483646 ∧ (2147483646 : Int) < INT_MAX
        ∧ primes_up_to (2147483646 + 1) = Res.overflow) :=
  ⟨⟨by decide, by decide, by decide,
      (primes_up_to_monotone 7 10 (by decide) (by decide) (by decide)).1⟩,
    ⟨by decide, by decide, by decide,
      (primes_up_to_monotone 2147483646 2147483646 (by decide) (by decide) (by decide)).2.2
        (by decide)⟩⟩

/-- C15 (as amended): for every 32-bit signed integer `n`, the incremented-bound
formulation (loop on `d*d <= n`) returns the same boolean as `is_prime` (loop on
`i <= floor(sqrt(n))`) when the product `d*d` is computed in a type that holds
`46341 * 46341`, and, when the product is a 32-bit `int`, for every `n` that is not a
prime greater than or equal to `46339 * 46339`. -/
theorem is_prime_sq_eq_is_prime (prod_max n : Int) (hM : INT_MAX ≤ prod_max)
    (_hlo : INT_MIN ≤ n) (hhi : n ≤ INT_MAX)
    (h : 46341 * 46341 ≤ prod_max ∨ n < 46339 * 46339 ∨ ¬ MathPrime n) :
    is_prime_sq prod_max n = is_prime n ∧ ∃ b : Bool, is_prime_sq prod_max n = Res.ok b := by
  suffices hs : is_prime_sq prod_max n = is_prime n by
    refine ⟨hs, decide (Nat.Prime n.toNat), ?_⟩
    rw [hs]
    exact is_prime_eq n hhi
  unfold is_prime_sq is_prime
  by_cases h2 : n < 2
  · simp [h2]
  · by_cases hev : Int.tmod n 2 = 0
    · simp [h2, hev]
    · simp only [h2, hev, if_false]
      have hl := limit_eq_sqrt n hhi
      obtain ⟨N, rfl⟩ : ∃ N : Nat, n = (N : Int) := ⟨n.toNat, by omega⟩
      have hodd : N % 2 = 1 := by
        by_contra hc
        apply hev
        apply Int.tmod_eq_zero_of_dvd
        have : (2 : Nat) ∣ N := by omega
        exact_mod_cast this
      simp only [Int.toNat_ofNat] at hl ⊢
      have hl1 : ((Nat.sqrt N : Nat) : Int) * ((Nat.sqrt N : Nat) : Int) ≤ (N : Int) := by
        exact_mod_cast Nat.sqrt_le N
      have hl2 : (N : Int) < (((Nat.sqrt N : Nat) : Int) + 1) * (((Nat.sqrt N : Nat) : Int) + 1) := by
        exact_mod_cast Nat.lt_succ_sqrt N
      rw [hl.1]
      apply is_prime_sq_loop_eq prod_max (N : Int) _ hM hhi (by omega) hl1 hl2 23170 3
        (by decide) (by decide) (by decide) (by decide)
      rcases h with hw | hsmall | hnp
      · exact Or.inl hw
      · right
        refine ⟨by decide, ?_⟩
        intro hbig
        omega
      · right
        refine ⟨by decide, ?_⟩
        intro _
        have hnp2 : ¬ Nat.Prime N := by
          intro hp
          apply hnp
          rw [mathPrime_iff]
          simpa using hp
        have hex : ∃ m, 2 ≤ m ∧ m ≤ Nat.sqrt N ∧ m ∣ N := by
          by_contra hcon
          apply hnp2
          apply Nat.prime_def_le_sqrt.2
          refine ⟨by omega, ?_⟩
          intro m hm1 hm2 hm3
          exact hcon ⟨m, hm1, hm2, hm3⟩
        obtain ⟨m, hm1, hm2, hm3⟩ := hex
        have hmodd : m % 2 = 1 := by
          by_contra hc
          have h2m : 2 ∣ m := by omega
          have : 2 ∣ N := Nat.dvd_trans h2m hm3
          omega
        have hlim : Nat.sqrt N ≤ 46340 := by
          have := hl.2
          rw [hl.1] at this
          exact_mod_cast this
        have hm : 3 + 2 * ((m - 3) / 2) = m := by omega
        refine ⟨(m - 3) / 2, ?_, ?_⟩
        · have h : 3 + 2 * ((m - 3) / 2) ≤ 46339 := by omega
          exact_mod_cast h
        · have h : (3 + 2 * ((m - 3) / 2)) ∣ N := by rw [hm]; exact hm3
          exact_mod_cast h

theorem is_prime_sq_eq_is_prime_witness :
    (INT_MAX ≤ INT_MAX ∧ INT_MIN ≤ 25 ∧ (25 : Int) ≤ INT_MAX
        ∧ is_prime_sq INT_MAX 25 = is_prime 25
        ∧ ∃ b : Bool, is_prime_sq INT_MAX 25 = Res.ok b)
      ∧ (INT_MAX ≤ 9223372036854775807 ∧ INT_MIN ≤ INT_MAX ∧ INT_MAX ≤ INT_MAX
        ∧ is_prime_sq 9223372036854775807 INT_MAX = is_prime INT_MAX
        ∧ ∃ b : Bool, is_prime_sq 9223372036854775807 INT_MAX = Res.ok b) :=
  ⟨⟨by decide, by decide, by decide,
      is_prime_sq_eq_is_prime INT_MAX 25 (by decide) (by decide) (by decide)
        (Or.inr (Or.inl (by decide)))⟩,
    ⟨by decide, by decide, by decide,
      is_prime_sq_eq_is_prime 9223372036854775807 INT_MAX (by decide) (by decide) (by decide)
        (Or.inl (by decide))⟩⟩

/-- C15 (as stated) fails at `n = INT_MAX` when the product `d*d` is a 32-bit `int`:
`is_prime` returns `true`, the incremented-bound formulation overflows at
`d = 46341` and returns no boolean. -/
theorem is_prime_sq_differs_at_int_max :
    INT_MIN ≤ INT_MAX ∧ INT_MAX ≤ INT_MAX ∧ is_prime INT_MAX = Res.ok true
      ∧ is_prime_sq INT_MAX INT_MAX = Res.overflow
      ∧ ¬ (is_prime_sq INT_MAX INT_MAX = is_prime INT_MAX) := by
  refine ⟨by decide, by decide, is_prime_int_max, is_prime_sq_int_max, ?_⟩
  rw [is_prime_int_max, is_prime_sq_int_max]
  exact fun h => Res.noConfusion h

end PrimesCpp
